import Mathlib

/-!
Verification of the data-transformation pipeline of `src/covidApp.py` (function
`get_data` plus the presentation-side region filter).

The embedding follows the source line by line.  Rows follow the RawRecord schema
of the specification (section 3): `date` and `maille_nom` are nullable strings,
`cas_confirmes` and `deces` are (non-null) integers, `reanimation` is a nullable
integer.  Pandas-library operations used by the source are embedded by their
documented semantics:

* `sort_values(by=["maille_nom", "date"])` with several keys is a stable
  lexicographic sort with missing keys placed last (numpy lexsort); we embed it
  as a stable sort (`List.insertionSort` — all stable sorts agree on their
  output) with the lexicographic key in `WithTop (List ℕ) ×ₗ WithTop (List ℕ)`,
  a string being keyed by its list of character code points (Python's string
  order) and `none` sorting last.
* `groupby("maille_nom")[c].diff()` subtracts, from each row's value, the value
  of the latest earlier row with the same (non-null) group key; a row with no
  earlier group mate, or with a null key (pandas drops null keys from groups),
  gets a null.
* `Series.rank(method="first", ascending=True)` on a grouped column assigns to
  each row one plus the number of rows of the same group whose (value, position)
  pair is lexicographically smaller; it ranks by the column VALUE, positions
  only break ties.
* float division `deces / cas_confirmes` of integer-valued columns follows
  numpy: `0 / 0` is NaN (pandas' null), `d / 0` is `+inf` for `d > 0` and
  `-inf` for `d < 0`, and otherwise the quotient is exact.
* `fillna(value=0)` on a frame replaces nulls in every column (including
  `date`) by the number 0.
* `pd.read_csv` raises on network failure / bad HTTP status (urllib) and on a
  malformed body (a record with more fields than the header; an empty body),
  and performs NO validation of which columns are present.
-/

namespace CovidApp

/-- One row of the source CSV, following the RawRecord schema of the spec:
nullable `date` and `maille_nom`, integer counters, nullable `reanimation`. -/
structure RawRecord where
  date : Option String
  granularite : String
  source_type : String
  maille_nom : Option String
  cas_confirmes : Int
  deces : Int
  reanimation : Option Int
deriving DecidableEq, Repr

/-! National branch: select, melt, fillna. -/

/-- Selection `data[(data.granularite == "pays") & (data.source_type == "sante-publique-france")]`. -/
def selectFr (data : List RawRecord) : List RawRecord :=
  data.filter fun r =>
    decide (r.granularite = "pays" ∧ r.source_type = "sante-publique-france")

/-- A row of the melted national frame, before `fillna`: `date` is carried over
(still nullable), `type` names the metric column, `nombre` its (nullable) value. -/
structure MeltRow where
  date : Option String
  type : String
  nombre : Option Int
deriving DecidableEq, Repr

/-- The melt `pd.melt(df, id_vars=["date"], value_vars=["cas_confirmes", "deces",
"reanimation"], var_name="type", value_name="nombre")`: one block of rows per
value column, in column order. -/
def melt (l : List RawRecord) : List MeltRow :=
  (l.map fun r => ⟨r.date, "cas_confirmes", some r.cas_confirmes⟩)
    ++ (l.map fun r => ⟨r.date, "deces", some r.deces⟩)
    ++ (l.map fun r => ⟨r.date, "reanimation", r.reanimation⟩)

/-- A date cell of the national frame after `fillna(value=0)`: either a real
date, or the literal number 0 that `fillna` wrote over a null date. -/
inductive DateCell where
  | ofDate (d : String)
  | zero
deriving DecidableEq, Repr

/-- A row of the final national frame `df_covid19_fr`. -/
structure FrRow where
  date : DateCell
  type : String
  nombre : Int
deriving DecidableEq, Repr

/-- Effect of `fillna(value=0)` on one melted row: it applies to the whole
frame, so a null `date` becomes the number 0 just like a null `nombre`. -/
def fillnaRow (m : MeltRow) : FrRow :=
  { date := match m.date with
      | some d => DateCell.ofDate d
      | none => DateCell.zero
    type := m.type
    nombre := match m.nombre with
      | some v => v
      | none => 0 }

/-- The national table `df_covid19_fr`: select, melt, `fillna(value=0)`. -/
def mkNational (data : List RawRecord) : List FrRow :=
  (melt (selectFr data)).map fillnaRow

/-! Regional branch: select, project, sort, grouped diffs, fatality rate,
grouped first-ranks. -/

/-- A row of the regional frame after projection to
`["date", "maille_nom", "cas_confirmes", "deces"]`. -/
structure RegRow where
  date : Option String
  maille_nom : Option String
  cas_confirmes : Int
  deces : Int
deriving DecidableEq, Repr

/-- Selection `data[(data.granularite == "region") & (data.source_type ==
"agences-regionales-sante")]` followed by the projection to the four columns. -/
def selectRegion (data : List RawRecord) : List RegRow :=
  (data.filter fun r =>
      decide (r.granularite = "region" ∧ r.source_type = "agences-regionales-sante")).map
    fun r => ⟨r.date, r.maille_nom, r.cas_confirmes, r.deces⟩

/-- A string as the list of its character code points.  Python compares
strings code point by code point, lexicographically; this key realizes exactly
that order (and is injective, since a string is its list of characters). -/
def strKey (s : String) : List ℕ :=
  s.data.map fun c => c.val.toNat

/-- A nullable sort key: `none` (a missing value) sorts after every present
value, as pandas places NaN last. -/
def topOf (x : Option String) : WithTop (List ℕ) :=
  match x with
  | none => ⊤
  | some s => (strKey s : WithTop (List ℕ))

/-- The lexicographic sort key of `sort_values(by=["maille_nom", "date"])`. -/
def sortKey (r : RegRow) : Lex (WithTop (List ℕ) × WithTop (List ℕ)) :=
  toLex (topOf r.maille_nom, topOf r.date)

/-- The comparison of `sort_values(by=["maille_nom", "date"])` (both keys
ascending, missing values last). -/
def RowLe (a b : RegRow) : Prop :=
  sortKey a ≤ sortKey b

instance : DecidableRel RowLe := fun a b =>
  decidable_of_iff (sortKey a ≤ sortKey b) Iff.rfl

instance : IsTotal RegRow RowLe :=
  ⟨fun a b => le_total (sortKey a) (sortKey b)⟩

instance : IsTrans RegRow RowLe :=
  ⟨fun _ _ _ hab hbc => le_trans hab hbc⟩

/-- The sort `df.sort_values(by=["maille_nom", "date"])`: a stable sort (numpy
lexsort) by the lexicographic key; stable sorts agree on their output, so we
use insertion sort. -/
def sortRegion (l : List RegRow) : List RegRow :=
  l.insertionSort RowLe

/-- The `maille_nom` value of the row at position `j` of the sorted frame
(`none` when out of range). -/
def regionAt (s : List RegRow) (j : Nat) : Option String :=
  match s[j]? with
  | some r => r.maille_nom
  | none => none

/-- The value of metric column `f` at position `j` (0 out of range; every use
is guarded by a range condition). -/
def metricAt (f : RegRow → Int) (s : List RegRow) (j : Nat) : Int :=
  match s[j]? with
  | some r => f r
  | none => 0

/-- The position of the latest row before `i` carrying group key `nm`: the
previous row of the same `groupby("maille_nom")` group. -/
def prevSame (s : List RegRow) (nm : String) (i : Nat) : Option Nat :=
  ((List.range i).filter fun j => decide (regionAt s j = some nm)).getLast?

/-- The grouped diff `df.groupby("maille_nom")[c].diff()` at position `i`:
null on a null group key (pandas drops null keys) and on the first row of a
group, otherwise the difference with the previous row of the same group. -/
def deltaAt (f : RegRow → Int) (s : List RegRow) (i : Nat) : Option Int :=
  match s[i]? with
  | none => none
  | some r =>
    match r.maille_nom with
    | none => none
    | some nm =>
      match prevSame s nm i with
      | none => none
      | some j => some (f r - metricAt f s j)

/-- Row `j` qualifies for the ranking of threshold `thr` on metric `f` in the
group of region `nm`: it lies in that group (null keys are dropped by
`groupby`) and passes the filter `df[f > thr]`. -/
def Qual (thr : Int) (f : RegRow → Int) (s : List RegRow) (nm : String) (j : Nat) : Prop :=
  regionAt s j = some nm ∧ thr < metricAt f s j

instance (thr : Int) (f : RegRow → Int) (s : List RegRow) (nm : String) :
    DecidablePred (Qual thr f s nm) := fun j =>
  decidable_of_iff (regionAt s j = some nm ∧ thr < metricAt f s j) Iff.rfl

/-- The column `df[df[f] > thr].groupby("maille_nom")[f].rank(method="first",
ascending=True)` read back at position `i` of the full frame: null unless row
`i` qualifies (threshold passed, non-null group key); a qualifying row gets one
plus the number of qualifying rows of the same group whose (metric value,
position) pair is lexicographically smaller — `rank` orders by the metric
VALUE, position only breaks ties. -/
def rankAt (thr : Int) (f : RegRow → Int) (s : List RegRow) (i : Nat) : Option Nat :=
  match s[i]? with
  | none => none
  | some r =>
    match r.maille_nom with
    | none => none
    | some nm =>
      if thr < f r then
        some (1 + ((Finset.range s.length).filter fun j =>
          Qual thr f s nm j ∧
            (metricAt f s j < f r ∨ (metricAt f s j = f r ∧ j < i))).card)
      else none

/-- The fatality-rate value space: NaN (pandas' null), the two infinities that
numpy produces on division of a nonzero number by zero, or an exact rational. -/
inductive Rate where
  | nan
  | pinf
  | ninf
  | val (q : ℚ)
deriving DecidableEq, Repr

/-- The row-wise division `df["deces"] / df["cas_confirmes"]` with numpy
semantics on a zero denominator. -/
def fatality (deces cas : Int) : Rate :=
  if cas = 0 then
    if deces = 0 then Rate.nan
    else if 0 < deces then Rate.pinf
    else Rate.ninf
  else Rate.val ((deces : ℚ) / (cas : ℚ))

/-- A row of the final regional frame `df_covid19_region`. -/
structure RegOut where
  date : Option String
  maille_nom : Option String
  cas_confirmes : Int
  deces : Int
  delta_deces : Option Int
  delta_cas_confirmes : Option Int
  fatality_rate : Rate
  days_after_5_deaths : Option Nat
  days_after_50_confirmed : Option Nat
deriving DecidableEq, Repr

/-- The row of the final regional frame at position `i` of the sorted frame
`s`, with row content `r = s[i]`: the four projected columns plus the five
computed columns of lines 52-74 of the source. -/
def outAt (s : List RegRow) (i : Nat) (r : RegRow) : RegOut :=
  { date := r.date
    maille_nom := r.maille_nom
    cas_confirmes := r.cas_confirmes
    deces := r.deces
    delta_deces := deltaAt (fun x => x.deces) s i
    delta_cas_confirmes := deltaAt (fun x => x.cas_confirmes) s i
    fatality_rate := fatality r.deces r.cas_confirmes
    days_after_5_deaths := rankAt 5 (fun x => x.deces) s i
    days_after_50_confirmed := rankAt 50 (fun x => x.cas_confirmes) s i }

/-- The regional table `df_covid19_region` of `get_data`. -/
def mkRegional (data : List RawRecord) : List RegOut :=
  let s := sortRegion (selectRegion data)
  s.enum.map fun p => outAt s p.1 p.2

/-- The pair returned by `get_data` after the fetch. -/
def get_data (data : List RawRecord) : List RegOut × List FrRow :=
  (mkRegional data, mkNational data)

/-- Spec-side construction (for claim C1, following the words of the spec):
restrict to rows above the threshold and rank within each region by ascending
DATE, the first occurrence getting rank 1 and ties broken by input order.  On
the date-sorted frame this is one plus the number of earlier qualifying rows of
the same group. -/
def rankByDate (thr : Int) (f : RegRow → Int) (s : List RegRow) (i : Nat) : Option Nat :=
  match s[i]? with
  | none => none
  | some r =>
    match r.maille_nom with
    | none => none
    | some nm =>
      if thr < f r then
        some (1 + ((Finset.range i).filter fun j => Qual thr f s nm j).card)
      else none

/-- Within every group, the qualifying metric values are nondecreasing along
the (date-sorted) row order.  Under this hypothesis ranking by metric value
agrees with ranking by date. -/
def MonoQual (thr : Int) (f : RegRow → Int) (s : List RegRow) : Prop :=
  ∀ i, i < s.length → ∀ j, j < s.length → i < j →
    regionAt s i = regionAt s j →
    thr < metricAt f s i → thr < metricAt f s j →
    metricAt f s i ≤ metricAt f s j

instance (thr : Int) (f : RegRow → Int) (s : List RegRow) :
    Decidable (MonoQual thr f s) :=
  decidable_of_iff
    (∀ i ∈ List.range s.length, ∀ j ∈ List.range s.length, i < j →
      regionAt s i = regionAt s j →
      thr < metricAt f s i → thr < metricAt f s j →
      metricAt f s i ≤ metricAt f s j)
    (by simp only [List.mem_range]; exact Iff.rfl)

/-! Presentation-side region filter (lines 84 and 96-99 of the source). -/

/-- The list `list(df.maille_nom.unique())`: the distinct values of a column in
order of first occurrence. -/
def uniqueVals (l : List (Option String)) : List (Option String) :=
  l.foldl (fun acc x => if x ∈ acc then acc else acc ++ [x]) []

/-- The column `df_covid19_region.maille_nom` of the regional table. -/
def regionsOf (t : List RegOut) : List (Option String) :=
  t.map fun r => r.maille_nom

/-- The comparison of `sort_values(by=["maille_nom", "date"],
ascending=[True, False])`: `maille_nom` ascending, `date` descending. -/
def RowLeDesc (a b : RegOut) : Prop :=
  toLex (topOf a.maille_nom, OrderDual.toDual (topOf a.date))
    ≤ toLex (topOf b.maille_nom, OrderDual.toDual (topOf b.date))

instance : DecidableRel RowLeDesc := fun a b =>
  decidable_of_iff
    (toLex (topOf a.maille_nom, OrderDual.toDual (topOf a.date))
      ≤ toLex (topOf b.maille_nom, OrderDual.toDual (topOf b.date))) Iff.rfl

/-- The presentation-side filter `df[df["maille_nom"].isin(sel)].sort_values(
by=["maille_nom", "date"], ascending=[True, False])`: a fresh view of the
regional table, the table itself left untouched. -/
def filterRegions (t : List RegOut) (sel : List (Option String)) : List RegOut :=
  (t.filter fun r => decide (r.maille_nom ∈ sel)).insertionSort RowLeDesc

/-! Loader (line 26 of the source, `pd.read_csv(url)`), embedded by the
behavior of pandas plus urllib on a fetched resource. -/

/-- The error taxonomy of the spec's loader contract. -/
inductive LoadError where
  | NetworkError
  | ParseError
deriving DecidableEq, Repr

/-- A parsed CSV: the header line and the remaining records, as fields. -/
structure Csv where
  header : List String
  rows : List (List String)
deriving DecidableEq, Repr

/-- What the fetch of the url can yield: a connection failure, or an HTTP
response with a status code and a body (the body given as its lines split into
fields). -/
inductive FetchOutcome where
  | connFailure
  | response (status : Nat) (body : List (List String))

/-- The pandas CSV tokenizer on a fetched body: an empty body is an error
(EmptyDataError), a record with more fields than the header is an error
(ParserError); otherwise the first line is the header and the rest are the
records.  No check of which columns are present is performed. -/
def parseCsv (body : List (List String)) : Except LoadError Csv :=
  match body with
  | [] => Except.error LoadError.ParseError
  | header :: rows =>
    if rows.all fun row => decide (row.length ≤ header.length) then
      Except.ok ⟨header, rows⟩
    else Except.error LoadError.ParseError

/-- The loader `pd.read_csv(url)`: urllib raises on a connection failure and on
a non-success HTTP status (both mapped to NetworkError by the spec's taxonomy),
then the body is tokenized. -/
def readCsv (o : FetchOutcome) : Except LoadError Csv :=
  match o with
  | FetchOutcome.connFailure => Except.error LoadError.NetworkError
  | FetchOutcome.response status body =>
    if 400 ≤ status then Except.error LoadError.NetworkError
    else parseCsv body

/-- The column set the spec expects of the resource. -/
def expectedCols : List String :=
  ["date", "granularite", "source_type", "maille_nom", "cas_confirmes",
    "deces", "reanimation"]

/-- Well-formedness of a fetched body for the pandas tokenizer, stated
independently of `parseCsv`: the body is nonempty and no record is wider than
the header. -/
def CsvWellFormed (body : List (List String)) : Prop :=
  ∃ header rows, body = header :: rows ∧ ∀ row ∈ rows, row.length ≤ header.length

/-- The per-group first-rank count as a closed formula: the set of qualifying
positions of the group of `nm`. -/
def Qset (thr : Int) (f : RegRow → Int) (s : List RegRow) (nm : String) : Finset ℕ :=
  (Finset.range s.length).filter (Qual thr f s nm)

/-- The value `rank(method="first")` assigns to position `i` of the group of
`nm`: one plus the number of qualifying group positions with lexicographically
smaller (metric value, position). -/
def rankFormula (thr : Int) (f : RegRow → Int) (s : List RegRow) (nm : String) (i : Nat) : ℕ :=
  1 + ((Qset thr f s nm).filter fun j =>
    metricAt f s j < metricAt f s i ∨ (metricAt f s j = metricAt f s i ∧ j < i)).card

/-! Concrete tables used as witnesses and counterexamples. -/

/-- A regional data row from the agences-regionales-sante source. -/
def mkARS (d : String) (nm : String) (cas deces : Int) : RawRecord :=
  ⟨some d, "region", "agences-regionales-sante", some nm, cas, deces, none⟩

/-- A one-region table whose death counter decreases from one day to the
next (a downward data correction). -/
def exNonMono : List RawRecord :=
  [mkARS "2020-03-01" "A" 0 10, mkARS "2020-03-02" "A" 0 7]

/-- The worked example of the spec: region Grand Est with deces [0, 2, 6, 9]
on four consecutive dates (case counts increasing as well). -/
def exGE : List RawRecord :=
  [mkARS "2020-03-01" "Grand Est" 10 0, mkARS "2020-03-02" "Grand Est" 20 2,
    mkARS "2020-03-03" "Grand Est" 60 6, mkARS "2020-03-04" "Grand Est" 80 9]

/-- A single regional row with a zero case count and positive deaths. -/
def exDivZero : List RawRecord :=
  [mkARS "2020-03-01" "A" 0 6]

/-- A single regional row with both counters zero. -/
def exZero : List RawRecord :=
  [mkARS "2020-03-01" "A" 0 0]

/-- The regional output row the transform produces from `exZero`: the 0/0
fatality rate is NaN. -/
def rowZero : RegOut :=
  ⟨some "2020-03-01", some "A", 0, 0, none, none, Rate.nan, none, none⟩

/-- A national (pays, sante-publique-france) row carrying a null date. -/
def recNullDate : RawRecord :=
  ⟨none, "pays", "sante-publique-france", none, 100, 10, none⟩

/-- A one-row national table whose row has a null date. -/
def exNullDate : List RawRecord :=
  [recNullDate]

/-! Shared helper lemmas. -/

theorem mkRegional_at (data : List RawRecord) (i : Nat) :
    (mkRegional data)[i]?
      = ((sortRegion (selectRegion data))[i]?).map
          (outAt (sortRegion (selectRegion data)) i) := by
  show ((sortRegion (selectRegion data)).enum.map fun p =>
    outAt (sortRegion (selectRegion data)) p.1 p.2)[i]? = _
  rw [List.getElem?_map, List.getElem?_enum]
  cases (sortRegion (selectRegion data))[i]? <;> rfl

theorem mkRegional_length (data : List RawRecord) :
    (mkRegional data).length = (sortRegion (selectRegion data)).length := by
  show ((sortRegion (selectRegion data)).enum.map fun p =>
    outAt (sortRegion (selectRegion data)) p.1 p.2).length = _
  simp

theorem melt_mem_rows (l : List RawRecord) (r : RawRecord) (hr : r ∈ l) :
    (⟨r.date, "cas_confirmes", some r.cas_confirmes⟩ : MeltRow) ∈ melt l ∧
    (⟨r.date, "deces", some r.deces⟩ : MeltRow) ∈ melt l ∧
    (⟨r.date, "reanimation", r.reanimation⟩ : MeltRow) ∈ melt l := by
  unfold melt
  refine ⟨?_, ?_, ?_⟩
  · exact List.mem_append_left _ (List.mem_append_left _ (List.mem_map_of_mem _ hr))
  · exact List.mem_append_left _ (List.mem_append_right _ (List.mem_map_of_mem _ hr))
  · exact List.mem_append_right _ (List.mem_map_of_mem _ hr)

theorem mem_uniqueVals (l : List (Option String)) (x : Option String) (hx : x ∈ l) :
    x ∈ uniqueVals l := by
  have main : ∀ (l : List (Option String)) (acc : List (Option String)) (x : Option String),
      x ∈ acc ∨ x ∈ l →
      x ∈ l.foldl (fun acc y => if y ∈ acc then acc else acc ++ [y]) acc := by
    intro l
    induction l with
    | nil =>
      intro acc x hx
      simpa using hx.resolve_right (by simp)
    | cons y ys ih =>
      intro acc x hx
      simp only [List.foldl_cons]
      apply ih
      rcases hx with hacc | hl
      · left
        split
        · exact hacc
        · exact List.mem_append_left _ hacc
      · rcases List.mem_cons.mp hl with rfl | hys
        · left
          split
          · assumption
          · exact List.mem_append_right _ (List.mem_singleton.mpr rfl)
        · right
          exact hys
  exact main l [] x (Or.inr hx)

theorem csvWellFormed_cons (header : List String) (rows : List (List String)) :
    CsvWellFormed (header :: rows) ↔ ∀ row ∈ rows, row.length ≤ header.length := by
  constructor
  · rintro ⟨h, r, heq, hall⟩
    injection heq with h1 h2
    subst h1; subst h2
    exact hall
  · intro h
    exact ⟨header, rows, rfl, h⟩

/-! Claim C2: the fatality rate. -/

/-- Claim C2, counterexample: a regional row with `cas_confirmes = 0` and
`deces = 6` gets fatality rate `+inf`, a non-null value, so the rate is NOT
null whenever the denominator is zero. -/
theorem fatality_rate_zero_denominator_counterexample :
    ((mkRegional exDivZero).map fun row => (row.cas_confirmes, row.fatality_rate))
      = [(0, Rate.pinf)] ∧ Rate.pinf ≠ Rate.nan := by
  constructor
  · decide
  · intro h
    exact Rate.noConfusion h

/-- Claim C2 (amended): for every row of the regional table, the fatality rate
is the exact quotient `deces / cas_confirmes` whenever `cas_confirmes` is
nonzero, and it is null (NaN) if and only if both `deces` and `cas_confirmes`
are zero; a zero denominator with nonzero numerator yields an infinity, not
null.  No case is a runtime failure. -/
theorem fatality_rate_characterization (data : List RawRecord) (i : Nat) (row : RegOut)
    (h : (mkRegional data)[i]? = some row) :
    (row.cas_confirmes ≠ 0 →
      row.fatality_rate = Rate.val ((row.deces : ℚ) / (row.cas_confirmes : ℚ))) ∧
    (row.fatality_rate = Rate.nan ↔ (row.cas_confirmes = 0 ∧ row.deces = 0)) ∧
    (row.cas_confirmes = 0 → 0 < row.deces → row.fatality_rate = Rate.pinf) := by
  rw [mkRegional_at] at h
  cases hs : (sortRegion (selectRegion data))[i]? with
  | none =>
    rw [hs] at h
    exact absurd h (by simp)
  | some r =>
    rw [hs] at h
    simp only [Option.map_some'] at h
    have hrow : row = outAt (sortRegion (selectRegion data)) i r := (Option.some.inj h).symm
    subst hrow
    simp only [outAt]
    refine ⟨?_, ?_, ?_⟩
    · intro hc
      unfold fatality
      rw [if_neg hc]
    · unfold fatality
      by_cases hc : r.cas_confirmes = 0
      · rw [if_pos hc]
        by_cases hd : r.deces = 0
        · simp [hd, hc]
        · rw [if_neg hd]
          by_cases hpos : 0 < r.deces
          · rw [if_pos hpos]
            simp [hc, hd]
          · rw [if_neg hpos]
            simp [hc, hd]
      · rw [if_neg hc]
        simp [hc]
    · intro hc hd
      unfold fatality
      rw [if_pos hc, if_neg (by omega), if_pos hd]

/-- Claim C2, witness: the amended characterization applied to a concrete
one-row table with `cas_confirmes = 0`, `deces = 0` (the spec's own 0/0
example). -/
theorem fatality_rate_characterization_witness :
    ((mkRegional exZero)[0]? = some rowZero) ∧
    ((rowZero.cas_confirmes ≠ 0 →
        rowZero.fatality_rate
          = Rate.val ((rowZero.deces : ℚ) / (rowZero.cas_confirmes : ℚ))) ∧
      (rowZero.fatality_rate = Rate.nan ↔ (rowZero.cas_confirmes = 0 ∧ rowZero.deces = 0)) ∧
      (rowZero.cas_confirmes = 0 → 0 < rowZero.deces → rowZero.fatality_rate = Rate.pinf)) :=
  ⟨by decide, fatality_rate_characterization exZero 0 rowZero (by decide)⟩

/-! Claim C5: the loader. -/

/-- Claim C5, counterexample: a 200 response whose body is a well-formed CSV
with the single column `date` is parsed and returned as a table, although all
the other expected columns (for instance `deces`) are missing — the loader
does not fail with ParseError on missing columns. -/
theorem readCsv_missing_columns_counterexample :
    readCsv (FetchOutcome.response 200 [["date"], ["2020-03-01"]])
        = Except.ok ⟨["date"], [["2020-03-01"]]⟩ ∧
    "deces" ∈ expectedCols ∧ "deces" ∉ (["date"] : List String) := by
  refine ⟨rfl, by decide, by decide⟩

/-- Claim C5 (amended): the loader fails with NetworkError on connection
failure and on a non-success HTTP status; given a success status it fails with
ParseError exactly when the body is not a well-formed CSV, and otherwise
returns the parsed table whatever its columns are — no column validation is
performed. -/
theorem readCsv_characterization (o : FetchOutcome) :
    (o = FetchOutcome.connFailure → readCsv o = Except.error LoadError.NetworkError) ∧
    (∀ st body, o = FetchOutcome.response st body →
      (400 ≤ st → readCsv o = Except.error LoadError.NetworkError) ∧
      (st < 400 →
        ((readCsv o = Except.error LoadError.ParseError ↔ ¬ CsvWellFormed body) ∧
          (CsvWellFormed body →
            ∃ header rows, body = header :: rows
              ∧ readCsv o = Except.ok ⟨header, rows⟩)))) := by
  constructor
  · rintro rfl
    rfl
  · rintro st body rfl
    constructor
    · intro h
      simp only [readCsv, if_pos h]
    · intro hlt
      have hif : readCsv (FetchOutcome.response st body) = parseCsv body := by
        simp only [readCsv, if_neg (by omega : ¬ 400 ≤ st)]
      rw [hif]
      cases body with
      | nil =>
        refine ⟨?_, ?_⟩
        · refine ⟨fun _ => ?_, fun _ => rfl⟩
          rintro ⟨h, r, heq, -⟩
          exact List.noConfusion heq
        · rintro ⟨h, r, heq, -⟩
          exact absurd heq List.noConfusion
      | cons header rows =>
        by_cases hall : ∀ row ∈ rows, row.length ≤ header.length
        · have hall' : (rows.all fun row => decide (row.length ≤ header.length)) = true := by
            rw [List.all_eq_true]
            intro row hrow
            exact decide_eq_true (hall row hrow)
          refine ⟨?_, ?_⟩
          · constructor
            · intro h
              rw [parseCsv, if_pos hall'] at h
              exact absurd h (by simp)
            · intro hnwf
              exact absurd ((csvWellFormed_cons header rows).mpr hall) hnwf
          · intro _
            exact ⟨header, rows, rfl, by rw [parseCsv, if_pos hall']⟩
        · have hall' : ¬ (rows.all fun row => decide (row.length ≤ header.length)) = true := by
            intro hc
            rw [List.all_eq_true] at hc
            exact hall fun row hrow => of_decide_eq_true (hc row hrow)
          refine ⟨?_, ?_⟩
          · constructor
            · intro _
              rw [csvWellFormed_cons]
              exact hall
            · intro _
              rw [parseCsv, if_neg hall']
          · intro hwf
            exact absurd ((csvWellFormed_cons header rows).mp hwf) hall

/-! Claim C6: the unpivot of the national branch. -/

/-- Claim C6: unpivoting the selected national rows yields exactly three rows
per selected input row (one per metric column), before and after the null
replacement, and every selected row's date appears in the melted output (on
its cas_confirmes row, its deces row and its reanimation row alike). -/
theorem melt_length_and_dates (data : List RawRecord) :
    (melt (selectFr data)).length = 3 * (selectFr data).length ∧
    (mkNational data).length = 3 * (selectFr data).length ∧
    ∀ r ∈ selectFr data,
      (⟨r.date, "cas_confirmes", some r.cas_confirmes⟩ : MeltRow) ∈ melt (selectFr data) ∧
      (⟨r.date, "deces", some r.deces⟩ : MeltRow) ∈ melt (selectFr data) ∧
      (⟨r.date, "reanimation", r.reanimation⟩ : MeltRow) ∈ melt (selectFr data) := by
  refine ⟨?_, ?_, ?_⟩
  · unfold melt
    simp only [List.length_append, List.length_map]
    omega
  · unfold mkNational melt
    simp only [List.length_map, List.length_append]
    omega
  · intro r hr
    exact melt_mem_rows (selectFr data) r hr

/-! Claim C8: the null replacement on `nombre`. -/

/-- Claim C8: the final national table is the melted table with `fillna(0)`
applied row by row; a null `nombre` becomes 0 and a present `nombre` is kept.
Every `nombre` of the final table is therefore a number. -/
theorem fillna_nombre_zero (data : List RawRecord) :
    (mkNational data).length = (melt (selectFr data)).length ∧
    ∀ (i : Nat) (m : MeltRow), (melt (selectFr data))[i]? = some m →
      (mkNational data)[i]? = some (fillnaRow m) ∧
      (m.nombre = none → (fillnaRow m).nombre = 0) ∧
      (∀ v, m.nombre = some v → (fillnaRow m).nombre = v) := by
  constructor
  · unfold mkNational
    simp
  · intro i m hm
    refine ⟨?_, ?_, ?_⟩
    · unfold mkNational
      rw [List.getElem?_map, hm]
      rfl
    · intro h
      simp [fillnaRow, h]
    · intro v h
      simp [fillnaRow, h]

/-! Claim C10: a null date in the national branch. -/

/-- Claim C10: `fillna(value=0)` is applied to the whole melted frame, so a
selected national row with a null date contributes its three metric rows with
the date cell holding the number 0 — the row is neither dropped nor left
null. -/
theorem null_date_filled_zero (data : List RawRecord) (r : RawRecord)
    (hr : r ∈ selectFr data) (hd : r.date = none) :
    (⟨DateCell.zero, "cas_confirmes", r.cas_confirmes⟩ : FrRow) ∈ mkNational data ∧
    (⟨DateCell.zero, "deces", r.deces⟩ : FrRow) ∈ mkNational data ∧
    (∀ v, r.reanimation = some v →
      (⟨DateCell.zero, "reanimation", v⟩ : FrRow) ∈ mkNational data) ∧
    (r.reanimation = none →
      (⟨DateCell.zero, "reanimation", 0⟩ : FrRow) ∈ mkNational data) := by
  obtain ⟨h1, h2, h3⟩ := melt_mem_rows (selectFr data) r hr
  refine ⟨?_, ?_, ?_, ?_⟩
  · have := List.mem_map_of_mem fillnaRow h1
    simpa [mkNational, fillnaRow, hd] using this
  · have := List.mem_map_of_mem fillnaRow h2
    simpa [mkNational, fillnaRow, hd] using this
  · intro v hv
    have := List.mem_map_of_mem fillnaRow h3
    simpa [mkNational, fillnaRow, hd, hv] using this
  · intro hv
    have := List.mem_map_of_mem fillnaRow h3
    simpa [mkNational, fillnaRow, hd, hv] using this

/-- Claim C10, witness: the concrete national table built from one selected
row with a null date. -/
theorem null_date_filled_zero_witness :
    (recNullDate ∈ selectFr exNullDate ∧ recNullDate.date = none) ∧
    ((⟨DateCell.zero, "cas_confirmes", recNullDate.cas_confirmes⟩ : FrRow)
        ∈ mkNational exNullDate ∧
      (⟨DateCell.zero, "deces", recNullDate.deces⟩ : FrRow) ∈ mkNational exNullDate ∧
      (∀ v, recNullDate.reanimation = some v →
        (⟨DateCell.zero, "reanimation", v⟩ : FrRow) ∈ mkNational exNullDate) ∧
      (recNullDate.reanimation = none →
        (⟨DateCell.zero, "reanimation", 0⟩ : FrRow) ∈ mkNational exNullDate)) :=
  ⟨⟨by decide, by decide⟩,
    null_date_filled_zero exNullDate recNullDate (by decide) (by decide)⟩

/-! Claim C3: the regional sort is an ascending stable sort. -/

/-- Claim C3: the sorted regional frame is ordered by the lexicographic
(maille_nom, date) key (so, within each region, ascending by date), it is a
permutation of its input, and rows sharing their full (maille_nom, date) key
keep exactly their input order (stability). -/
theorem sortRegion_sorted_stable (l : List RegRow) :
    (sortRegion l).Pairwise RowLe ∧
    (sortRegion l).Perm l ∧
    ∀ (nm : Option String) (d : Option String),
      (sortRegion l).filter (fun r => decide (r.maille_nom = nm ∧ r.date = d))
        = l.filter (fun r => decide (r.maille_nom = nm ∧ r.date = d)) := by
  refine ⟨List.sorted_insertionSort RowLe l, List.perm_insertionSort RowLe l, ?_⟩
  intro nm d
  set p : RegRow → Bool := fun r => decide (r.maille_nom = nm ∧ r.date = d) with hp
  have hpair : (l.filter p).Pairwise RowLe := by
    apply List.pairwise_of_forall_mem_list
    intro a ha b hb
    have ha2 := (List.mem_filter.mp ha).2
    have hb2 := (List.mem_filter.mp hb).2
    have ha' : a.maille_nom = nm ∧ a.date = d := of_decide_eq_true ha2
    have hb' : b.maille_nom = nm ∧ b.date = d := of_decide_eq_true hb2
    show sortKey a ≤ sortKey b
    have : sortKey a = sortKey b := by
      unfold sortKey
      rw [ha'.1, ha'.2, hb'.1, hb'.2]
    exact le_of_eq this
  have hsub : List.Sublist (l.filter p) (sortRegion l) :=
    List.sublist_insertionSort hpair (List.filter_sublist l)
  have hidem : (l.filter p).filter p = l.filter p :=
    List.filter_eq_self.mpr fun a ha => List.of_mem_filter ha
  have hsub2 : List.Sublist (l.filter p) ((sortRegion l).filter p) := by
    have h3 := hsub.filter p
    rwa [hidem] at h3
  have hlen : (l.filter p).length = ((sortRegion l).filter p).length := by
    rw [← List.countP_eq_length_filter, ← List.countP_eq_length_filter]
    exact ((List.perm_insertionSort RowLe l).countP_eq p).symm
  exact (hsub2.eq_of_length hlen).symm

/-! Claim C4: the grouped day-over-day differences. -/

theorem deltaAt_none_iff (f : RegRow → Int) (s : List RegRow) (i : Nat) (r : RegRow)
    (hi : s[i]? = some r) (nm : String) (hnm : r.maille_nom = some nm) :
    (deltaAt f s i = none ↔ ∀ j, j < i → regionAt s j ≠ some nm) := by
  simp only [deltaAt, hi, hnm]
  cases hl : prevSame s nm i with
  | none =>
    refine iff_of_true rfl ?_
    unfold prevSame at hl
    rw [List.getLast?_eq_none_iff] at hl
    intro j hj hreg
    have hjm : j ∈ (List.range i).filter fun j => decide (regionAt s j = some nm) := by
      rw [List.mem_filter]
      exact ⟨List.mem_range.mpr hj, decide_eq_true hreg⟩
    rw [hl] at hjm
    exact absurd hjm (List.not_mem_nil j)
  | some j0 =>
    refine iff_of_false (by simp) fun hall => ?_
    unfold prevSame at hl
    have hj0mem : j0 ∈ (List.range i).filter fun j => decide (regionAt s j = some nm) :=
      List.mem_of_getLast?_eq_some hl
    have hj0dec := (List.mem_filter.mp hj0mem).2
    exact hall j0 (List.mem_range.mp (List.mem_of_mem_filter hj0mem))
      (of_decide_eq_true hj0dec)

theorem deltaAt_some_spec (f : RegRow → Int) (s : List RegRow) (i : Nat) (r : RegRow)
    (hi : s[i]? = some r) (nm : String) (hnm : r.maille_nom = some nm)
    (d : Int) (hd : deltaAt f s i = some d) :
    ∃ j, j < i ∧ regionAt s j = some nm ∧
      (∀ j2, j < j2 → j2 < i → regionAt s j2 ≠ some nm) ∧
      d = f r - metricAt f s j := by
  simp only [deltaAt, hi, hnm] at hd
  cases hl : prevSame s nm i with
  | none =>
    rw [hl] at hd
    exact absurd hd (by simp)
  | some j0 =>
    rw [hl] at hd
    have hdd : d = f r - metricAt f s j0 := (Option.some.inj hd).symm
    unfold prevSame at hl
    obtain ⟨ys, hys⟩ := List.getLast?_eq_some_iff.mp hl
    have hj0mem : j0 ∈ (List.range i).filter fun j => decide (regionAt s j = some nm) := by
      rw [hys]
      exact List.mem_append_right _ (List.mem_singleton.mpr rfl)
    have hj0lt : j0 < i := List.mem_range.mp (List.mem_of_mem_filter hj0mem)
    have hj0dec := (List.mem_filter.mp hj0mem).2
    have hj0reg : regionAt s j0 = some nm := of_decide_eq_true hj0dec
    refine ⟨j0, hj0lt, hj0reg, ?_, hdd⟩
    intro j2 hj2a hj2b hreg
    have hj2mem : j2 ∈ (List.range i).filter fun j => decide (regionAt s j = some nm) := by
      rw [List.mem_filter]
      exact ⟨List.mem_range.mpr hj2b, decide_eq_true hreg⟩
    have hpair : ((List.range i).filter
        fun j => decide (regionAt s j = some nm)).Pairwise (· < ·) :=
      (List.pairwise_lt_range i).sublist (List.filter_sublist _)
    rw [hys] at hpair hj2mem
    rcases List.mem_append.mp hj2mem with hcase | hcase
    · have : j2 < j0 :=
        (List.pairwise_append.mp hpair).2.2 j2 hcase j0 (List.mem_singleton.mpr rfl)
      omega
    · have : j2 = j0 := List.mem_singleton.mp hcase
      omega

/-- Claim C4: in the regional table (with every selected row carrying a region
name, as the schema guarantees), each delta column is null exactly on the
first row of its region and numeric on every other row, where it equals the
difference with the nearest earlier row of the same region — the difference
never crosses a region boundary. -/
theorem delta_first_row_iff (data : List RawRecord)
    (hnn : ∀ r ∈ selectRegion data, r.maille_nom ≠ none) :
    ∀ (i : Nat) (row : RegOut), (mkRegional data)[i]? = some row →
      (row.delta_deces = none ↔
        ∀ j, j < i → regionAt (sortRegion (selectRegion data)) j ≠ row.maille_nom) ∧
      (row.delta_cas_confirmes = none ↔
        ∀ j, j < i → regionAt (sortRegion (selectRegion data)) j ≠ row.maille_nom) ∧
      (∀ d, row.delta_deces = some d → ∃ j, j < i ∧
        regionAt (sortRegion (selectRegion data)) j = row.maille_nom ∧
        (∀ j2, j < j2 → j2 < i →
          regionAt (sortRegion (selectRegion data)) j2 ≠ row.maille_nom) ∧
        d = row.deces
          - metricAt (fun x => x.deces) (sortRegion (selectRegion data)) j) ∧
      (∀ d, row.delta_cas_confirmes = some d → ∃ j, j < i ∧
        regionAt (sortRegion (selectRegion data)) j = row.maille_nom ∧
        (∀ j2, j < j2 → j2 < i →
          regionAt (sortRegion (selectRegion data)) j2 ≠ row.maille_nom) ∧
        d = row.cas_confirmes
          - metricAt (fun x => x.cas_confirmes) (sortRegion (selectRegion data)) j) := by
  intro i row h
  rw [mkRegional_at] at h
  cases hsi : (sortRegion (selectRegion data))[i]? with
  | none =>
    rw [hsi] at h
    exact absurd h (by simp)
  | some r =>
    rw [hsi] at h
    simp only [Option.map_some'] at h
    have hrow : row = outAt (sortRegion (selectRegion data)) i r := (Option.some.inj h).symm
    subst hrow
    have hrs : r ∈ sortRegion (selectRegion data) := List.getElem?_mem hsi
    have hrsel : r ∈ selectRegion data := by
      unfold sortRegion at hrs
      exact (List.mem_insertionSort RowLe).mp hrs
    obtain ⟨nm, hnm⟩ : ∃ nm, r.maille_nom = some nm := by
      cases hmn : r.maille_nom with
      | none => exact absurd hmn (hnn r hrsel)
      | some nm => exact ⟨nm, rfl⟩
    simp only [outAt, hnm]
    refine ⟨?_, ?_, ?_, ?_⟩
    · exact deltaAt_none_iff (fun x => x.deces) _ i r hsi nm hnm
    · exact deltaAt_none_iff (fun x => x.cas_confirmes) _ i r hsi nm hnm
    · intro d hd
      exact deltaAt_some_spec (fun x => x.deces) _ i r hsi nm hnm d hd
    · intro d hd
      exact deltaAt_some_spec (fun x => x.cas_confirmes) _ i r hsi nm hnm d hd

/-- Claim C4, witness: the delta characterization on the concrete Grand Est
table. -/
theorem delta_first_row_iff_witness :
    (∀ r ∈ selectRegion exGE, r.maille_nom ≠ none) ∧
    (∀ (i : Nat) (row : RegOut), (mkRegional exGE)[i]? = some row →
      (row.delta_deces = none ↔
        ∀ j, j < i → regionAt (sortRegion (selectRegion exGE)) j ≠ row.maille_nom) ∧
      (row.delta_cas_confirmes = none ↔
        ∀ j, j < i → regionAt (sortRegion (selectRegion exGE)) j ≠ row.maille_nom) ∧
      (∀ d, row.delta_deces = some d → ∃ j, j < i ∧
        regionAt (sortRegion (selectRegion exGE)) j = row.maille_nom ∧
        (∀ j2, j < j2 → j2 < i →
          regionAt (sortRegion (selectRegion exGE)) j2 ≠ row.maille_nom) ∧
        d = row.deces
          - metricAt (fun x => x.deces) (sortRegion (selectRegion exGE)) j) ∧
      (∀ d, row.delta_cas_confirmes = some d → ∃ j, j < i ∧
        regionAt (sortRegion (selectRegion exGE)) j = row.maille_nom ∧
        (∀ j2, j < j2 → j2 < i →
          regionAt (sortRegion (selectRegion exGE)) j2 ≠ row.maille_nom) ∧
        d = row.cas_confirmes
          - metricAt (fun x => x.cas_confirmes) (sortRegion (selectRegion exGE)) j)) :=
  ⟨by decide, delta_first_row_iff exGE (by decide)⟩

/-! Claims C1 and C7: the days-after rank columns. -/

theorem rankAt_eq_some (thr : Int) (f : RegRow → Int) (s : List RegRow) (nm : String)
    (i : Nat) (r : RegRow) (hi : s[i]? = some r) (hnm : r.maille_nom = some nm)
    (hthr : thr < f r) :
    rankAt thr f s i = some (rankFormula thr f s nm i) := by
  unfold rankAt
  simp only [hi, hnm]
  rw [if_pos hthr]
  unfold rankFormula Qset
  rw [Finset.filter_filter]
  have hmi : metricAt f s i = f r := by
    unfold metricAt
    rw [hi]
  rw [hmi]

theorem rankAt_eq_none_of_le (thr : Int) (f : RegRow → Int) (s : List RegRow) (i : Nat)
    (r : RegRow) (hi : s[i]? = some r) (hthr : ¬ thr < f r) :
    rankAt thr f s i = none := by
  unfold rankAt
  simp only [hi]
  cases hmn : r.maille_nom with
  | none => rfl
  | some nm => exact if_neg hthr

theorem daysCol_eq_rankAt (data : List RawRecord) (i : Nat) :
    ((mkRegional data)[i]?.bind fun row => row.days_after_5_deaths)
      = rankAt 5 (fun r => r.deces) (sortRegion (selectRegion data)) i ∧
    ((mkRegional data)[i]?.bind fun row => row.days_after_50_confirmed)
      = rankAt 50 (fun r => r.cas_confirmes) (sortRegion (selectRegion data)) i := by
  rw [mkRegional_at]
  cases hsi : (sortRegion (selectRegion data))[i]? with
  | none =>
    have h5 : rankAt 5 (fun r => r.deces) (sortRegion (selectRegion data)) i = none := by
      unfold rankAt
      rw [hsi]
    have h50 : rankAt 50 (fun r => r.cas_confirmes) (sortRegion (selectRegion data)) i
        = none := by
      unfold rankAt
      rw [hsi]
    rw [h5, h50]
    exact ⟨rfl, rfl⟩
  | some r =>
    exact ⟨rfl, rfl⟩

theorem rankAt_eq_rankByDate_of_mono (thr : Int) (f : RegRow → Int) (s : List RegRow)
    (hmono : MonoQual thr f s) (i : Nat) :
    rankAt thr f s i = rankByDate thr f s i := by
  cases hi : s[i]? with
  | none =>
    simp only [rankAt, rankByDate, hi]
  | some r =>
    cases hnm : r.maille_nom with
    | none =>
      simp only [rankAt, rankByDate, hi, hnm]
    | some nm =>
      simp only [rankAt, rankByDate, hi, hnm]
      by_cases hthr : thr < f r
      · rw [if_pos hthr, if_pos hthr]
        have hilen : i < s.length := by
          rcases List.getElem?_eq_some_iff.mp hi with ⟨hlt, -⟩
          exact hlt
        have hregi : regionAt s i = some nm := by
          simp only [regionAt, hi, hnm]
        have hmi : metricAt f s i = f r := by
          simp only [metricAt, hi]
        have hsets : ((Finset.range s.length).filter fun j =>
              Qual thr f s nm j ∧ (metricAt f s j < f r ∨ (metricAt f s j = f r ∧ j < i)))
            = (Finset.range i).filter fun j => Qual thr f s nm j := by
          apply Finset.ext
          intro j
          simp only [Finset.mem_filter, Finset.mem_range]
          constructor
          · rintro ⟨hjlen, hq, hcond⟩
            refine ⟨?_, hq⟩
            obtain ⟨hqreg, hqmet⟩ := hq
            rcases Nat.lt_trichotomy j i with hj | hj | hj
            · exact hj
            · exfalso
              subst hj
              rw [hmi] at hcond
              rcases hcond with h1 | ⟨h2, h3⟩
              · exact absurd h1 (lt_irrefl _)
              · exact absurd h3 (lt_irrefl _)
            · exfalso
              have hle := hmono i hilen j hjlen hj (hregi.trans hqreg.symm)
                (by rw [hmi]; exact hthr) hqmet
              rw [hmi] at hle
              rcases hcond with h1 | ⟨h2, h3⟩
              · exact absurd h1 (not_lt.mpr hle)
              · omega
          · rintro ⟨hji, hq⟩
            refine ⟨lt_trans hji hilen, hq, ?_⟩
            obtain ⟨hqreg, hqmet⟩ := hq
            have hle := hmono j (lt_trans hji hilen) i hilen hji (hqreg.trans hregi.symm)
              hqmet (by rw [hmi]; exact hthr)
            rw [hmi] at hle
            rcases lt_or_eq_of_le hle with hlt | heq
            · exact Or.inl hlt
            · exact Or.inr ⟨heq, hji⟩
        rw [hsets]
      · rw [if_neg hthr, if_neg hthr]

theorem rank_values_Icc (thr : Int) (f : RegRow → Int) (s : List RegRow) (nm : String) :
    (Qset thr f s nm).image (rankFormula thr f s nm)
      = Finset.Icc 1 (Qset thr f s nm).card := by
  classical
  set Q := Qset thr f s nm with hQ
  set key : ℕ → Lex (ℤ × ℕ) := fun j => toLex (metricAt f s j, j) with hkey
  have hrf : ∀ i, rankFormula thr f s nm i
      = 1 + (Q.filter fun j => key j < key i).card := by
    intro i
    unfold rankFormula
    rw [← hQ]
    have hflt : (Q.filter fun j =>
          metricAt f s j < metricAt f s i ∨ (metricAt f s j = metricAt f s i ∧ j < i))
        = Q.filter fun j => key j < key i := by
      apply Finset.filter_congr
      intro j hj
      rw [hkey]
      exact (Prod.Lex.lt_iff (metricAt f s j, j) (metricAt f s i, i)).symm
    rw [hflt]
  have hkeyinj : ∀ (a b : ℕ), key a = key b → a = b := by
    intro a b hab
    have h2 := congrArg (fun x : Lex (ℤ × ℕ) => (ofLex x).2) hab
    simpa [hkey] using h2
  have hmono : ∀ a ∈ Q, ∀ b ∈ Q, key a < key b →
      rankFormula thr f s nm a < rankFormula thr f s nm b := by
    intro a ha b hb hab
    rw [hrf a, hrf b]
    have hsub : (Q.filter fun j => key j < key a) ⊆ (Q.filter fun j => key j < key b) := by
      intro x hx
      rw [Finset.mem_filter] at hx ⊢
      exact ⟨hx.1, lt_trans hx.2 hab⟩
    have hssub : (Q.filter fun j => key j < key a) ⊂ (Q.filter fun j => key j < key b) := by
      rw [Finset.ssubset_iff_of_subset hsub]
      refine ⟨a, Finset.mem_filter.mpr ⟨ha, hab⟩, ?_⟩
      rw [Finset.mem_filter]
      rintro ⟨-, hc⟩
      exact lt_irrefl _ hc
    have := Finset.card_lt_card hssub
    omega
  have hinj : Set.InjOn (rankFormula thr f s nm) ↑Q := by
    intro a ha b hb heq
    have ha' : a ∈ Q := ha
    have hb' : b ∈ Q := hb
    by_contra hne
    have hkne : key a ≠ key b := fun hc => hne (hkeyinj a b hc)
    rcases lt_or_gt_of_ne hkne with hlt | hgt
    · exact absurd heq (ne_of_lt (hmono a ha' b hb' hlt))
    · exact absurd heq.symm (ne_of_lt (hmono b hb' a ha' hgt))
  have hbound : ∀ a ∈ Q, rankFormula thr f s nm a ∈ Finset.Icc 1 Q.card := by
    intro a ha
    rw [Finset.mem_Icc, hrf a]
    constructor
    · omega
    · have hsub : (Q.filter fun j => key j < key a) ⊆ Q.erase a := by
        intro x hx
        rw [Finset.mem_filter] at hx
        rw [Finset.mem_erase]
        refine ⟨?_, hx.1⟩
        intro hc
        subst hc
        exact lt_irrefl _ hx.2
      have h1 := Finset.card_le_card hsub
      have h2 := Finset.card_erase_of_mem ha
      have h3 : 0 < Q.card := Finset.card_pos.mpr ⟨a, ha⟩
      omega
  have hsubset : Q.image (rankFormula thr f s nm) ⊆ Finset.Icc 1 Q.card := by
    intro v hv
    rw [Finset.mem_image] at hv
    obtain ⟨a, ha, rfl⟩ := hv
    exact hbound a ha
  apply Finset.eq_of_subset_of_card_le hsubset
  rw [Finset.card_image_of_injOn hinj, Nat.card_Icc]
  omega

/-- Claim C1, counterexample: on a region whose death counter decreases from
10 to 7 (both above 5), the code assigns days_after_5_deaths [2, 1] — it ranks
by the deces VALUE — while ranking within the region by ascending date (the
rows are date-sorted) assigns [1, 2]. -/
theorem rank_by_date_counterexample :
    ((mkRegional exNonMono).map fun row => row.days_after_5_deaths) = [some 2, some 1] ∧
    ((List.range 2).map fun i =>
        rankByDate 5 (fun r => r.deces) (sortRegion (selectRegion exNonMono)) i)
      = [some 1, some 2] ∧
    ((mkRegional exNonMono).map fun row => row.date)
      = [some "2020-03-01", some "2020-03-02"] := by
  refine ⟨by decide, by decide, by decide⟩

/-- Claim C1 (amended): the days-after columns are first-ranks by ascending
METRIC VALUE within the region (ties broken by position); whenever each
region's qualifying metric values are nondecreasing along the date-sorted row
order — the normal situation for cumulative counters — this coincides with the
rank by ascending date described by the spec, for both columns. -/
theorem days_after_rank_by_date_of_mono (data : List RawRecord)
    (h5 : MonoQual 5 (fun r => r.deces) (sortRegion (selectRegion data)))
    (h50 : MonoQual 50 (fun r => r.cas_confirmes) (sortRegion (selectRegion data))) :
    ∀ (i : Nat) (row : RegOut), (mkRegional data)[i]? = some row →
      row.days_after_5_deaths
        = rankByDate 5 (fun r => r.deces) (sortRegion (selectRegion data)) i ∧
      row.days_after_50_confirmed
        = rankByDate 50 (fun r => r.cas_confirmes) (sortRegion (selectRegion data)) i := by
  intro i row h
  rw [mkRegional_at] at h
  cases hsi : (sortRegion (selectRegion data))[i]? with
  | none =>
    rw [hsi] at h
    exact absurd h (by simp)
  | some r =>
    rw [hsi] at h
    simp only [Option.map_some'] at h
    have hrow : row = outAt (sortRegion (selectRegion data)) i r := (Option.some.inj h).symm
    subst hrow
    simp only [outAt]
    exact ⟨rankAt_eq_rankByDate_of_mono 5 _ _ h5 i,
      rankAt_eq_rankByDate_of_mono 50 _ _ h50 i⟩

/-- Claim C1, witness: the coincidence on the concrete Grand Est table, whose
counters are nondecreasing. -/
theorem days_after_rank_by_date_of_mono_witness :
    (MonoQual 5 (fun r => r.deces) (sortRegion (selectRegion exGE)) ∧
      MonoQual 50 (fun r => r.cas_confirmes) (sortRegion (selectRegion exGE))) ∧
    (∀ (i : Nat) (row : RegOut), (mkRegional exGE)[i]? = some row →
      row.days_after_5_deaths
        = rankByDate 5 (fun r => r.deces) (sortRegion (selectRegion exGE)) i ∧
      row.days_after_50_confirmed
        = rankByDate 50 (fun r => r.cas_confirmes) (sortRegion (selectRegion exGE)) i) :=
  ⟨⟨by decide, by decide⟩, days_after_rank_by_date_of_mono exGE (by decide) (by decide)⟩

/-- Claim C7: for every region name, the days-after values assigned on that
region's qualifying rows are exactly the contiguous range 1..k, where k is the
number of rows of that region above the threshold; every row at or below the
threshold carries no value.  Both rank columns. -/
theorem days_after_contiguous_ranks (data : List RawRecord) (nm : String) :
    ((Qset 5 (fun r => r.deces) (sortRegion (selectRegion data)) nm).image
        (rankFormula 5 (fun r => r.deces) (sortRegion (selectRegion data)) nm)
      = Finset.Icc 1
          (Qset 5 (fun r => r.deces) (sortRegion (selectRegion data)) nm).card) ∧
    (∀ i ∈ Qset 5 (fun r => r.deces) (sortRegion (selectRegion data)) nm,
      ((mkRegional data)[i]?.bind fun row => row.days_after_5_deaths)
        = some (rankFormula 5 (fun r => r.deces) (sortRegion (selectRegion data)) nm i)) ∧
    (∀ (i : Nat) (row : RegOut), (mkRegional data)[i]? = some row →
      ¬ 5 < row.deces → row.days_after_5_deaths = none) ∧
    ((Qset 50 (fun r => r.cas_confirmes) (sortRegion (selectRegion data)) nm).image
        (rankFormula 50 (fun r => r.cas_confirmes) (sortRegion (selectRegion data)) nm)
      = Finset.Icc 1
          (Qset 50 (fun r => r.cas_confirmes) (sortRegion (selectRegion data)) nm).card) ∧
    (∀ i ∈ Qset 50 (fun r => r.cas_confirmes) (sortRegion (selectRegion data)) nm,
      ((mkRegional data)[i]?.bind fun row => row.days_after_50_confirmed)
        = some (rankFormula 50 (fun r => r.cas_confirmes)
            (sortRegion (selectRegion data)) nm i)) ∧
    (∀ (i : Nat) (row : RegOut), (mkRegional data)[i]? = some row →
      ¬ 50 < row.cas_confirmes → row.days_after_50_confirmed = none) := by
  refine ⟨rank_values_Icc 5 _ _ nm, ?_, ?_, rank_values_Icc 50 _ _ nm, ?_, ?_⟩
  · intro i hiQ
    obtain ⟨hir, hq⟩ := Finset.mem_filter.mp hiQ
    obtain ⟨hreg, hmet⟩ := hq
    cases hsi : (sortRegion (selectRegion data))[i]? with
    | none =>
      exfalso
      unfold regionAt at hreg
      rw [hsi] at hreg
      exact Option.noConfusion hreg
    | some r =>
      have hnm : r.maille_nom = some nm := by
        unfold regionAt at hreg
        rw [hsi] at hreg
        exact hreg
      have hfr : (5 : Int) < r.deces := by
        unfold metricAt at hmet
        rw [hsi] at hmet
        exact hmet
      rw [(daysCol_eq_rankAt data i).1]
      exact rankAt_eq_some 5 _ _ nm i r hsi hnm hfr
  · intro i row h hle
    have hb := (daysCol_eq_rankAt data i).1
    rw [h] at hb
    rw [mkRegional_at] at h
    cases hsi : (sortRegion (selectRegion data))[i]? with
    | none =>
      rw [hsi] at h
      exact absurd h (by simp)
    | some r =>
      rw [hsi] at h
      simp only [Option.map_some'] at h
      have hrow : row = outAt (sortRegion (selectRegion data)) i r := (Option.some.inj h).symm
      subst hrow
      exact rankAt_eq_none_of_le 5 _ _ i r hsi hle
  · intro i hiQ
    obtain ⟨hir, hq⟩ := Finset.mem_filter.mp hiQ
    obtain ⟨hreg, hmet⟩ := hq
    cases hsi : (sortRegion (selectRegion data))[i]? with
    | none =>
      exfalso
      unfold regionAt at hreg
      rw [hsi] at hreg
      exact Option.noConfusion hreg
    | some r =>
      have hnm : r.maille_nom = some nm := by
        unfold regionAt at hreg
        rw [hsi] at hreg
        exact hreg
      have hfr : (50 : Int) < r.cas_confirmes := by
        unfold metricAt at hmet
        rw [hsi] at hmet
        exact hmet
      rw [(daysCol_eq_rankAt data i).2]
      exact rankAt_eq_some 50 _ _ nm i r hsi hnm hfr
  · intro i row h hle
    have hb := (daysCol_eq_rankAt data i).2
    rw [h] at hb
    rw [mkRegional_at] at h
    cases hsi : (sortRegion (selectRegion data))[i]? with
    | none =>
      rw [hsi] at h
      exact absurd h (by simp)
    | some r =>
      rw [hsi] at h
      simp only [Option.map_some'] at h
      have hrow : row = outAt (sortRegion (selectRegion data)) i r := (Option.some.inj h).symm
      subst hrow
      exact rankAt_eq_none_of_le 50 _ _ i r hsi hle

/-! Claim C9: the presentation-side region filter. -/

/-- Claim C9: filtering the regional table by the full list of its distinct
region names keeps every row, so after the re-sort the result is row-for-row a
permutation of the unfiltered table.  The filter builds a new list; the
regional table itself is not modified. -/
theorem filter_all_regions_perm (data : List RawRecord) :
    (filterRegions (mkRegional data) (uniqueVals (regionsOf (mkRegional data)))).Perm
      (mkRegional data) := by
  unfold filterRegions
  have h1 : ((mkRegional data).filter
        fun r => decide (r.maille_nom ∈ uniqueVals (regionsOf (mkRegional data))))
      = mkRegional data := by
    rw [List.filter_eq_self]
    intro r hr
    rw [decide_eq_true_eq]
    exact mem_uniqueVals _ _ (List.mem_map_of_mem (fun x => x.maille_nom) hr)
  rw [h1]
  exact List.perm_insertionSort _ _

end CovidApp
